import Mathlib

/-!
Shallow embedding of the size-class transfer cache layer
(`tcmalloc/transfer_cache.h`): the per-size-class transfer cache, the
`TransferCacheManager` that dispatches to it (full variant), and the
degenerate (cache-disabled, `TCMALLOC_SMALL_BUT_SLOW`) variant.

Object references are opaque pointers; we model them as natural numbers.
The manager code is embedded directly from the header.  The per-class
cache internals (`transfer_cache_internals.h`), the `CentralFreeList`
implementation and the body of `DetermineSizeClassToEvict`
(`transfer_cache.cc`) are not part of this fragment; those definitions
are modelled from the specification and are marked as such.
-/

namespace TcmallocSpec

/-- Modelled from the spec: `SpanStats` (defined in `tcmalloc/common.h`,
outside this fragment) is an opaque diagnostic record forwarded
unchanged by the pass-through accessors. -/
structure SpanStats where
  num_spans_requested : Nat
  num_spans_returned : Nat
  obj_capacity : Nat
deriving Repr, DecidableEq, Inhabited

/-- Modelled from the spec: the per-size-class `CentralFreeList`
(external collaborator, `tcmalloc/central_freelist.h` not in this
fragment).  It holds free object references; `overhead` and `stats` are
its diagnostic values, carried opaquely. -/
structure CentralFreeList where
  objs : List Nat
  overhead : Nat
  stats : SpanStats
deriving Repr, DecidableEq, Inhabited

/-- Modelled from the spec: `CentralFreeList::Init(size_class)` prepares
an empty central list for the class. -/
def CentralFreeList.Init (_size_class : Nat) : CentralFreeList :=
  { objs := [], overhead := 0, stats := ⟨0, 0, 0⟩ }

/-- Modelled from the spec: `CentralFreeList::InsertRange(batch, n)`
absorbs all `n` freed references; it always succeeds. -/
def CentralFreeList.InsertRange (c : CentralFreeList) (batch : List Nat) :
    CentralFreeList :=
  { c with objs := batch ++ c.objs }

/-- Modelled from the spec: `CentralFreeList::RemoveRange(batch, n)`
fills up to `n` slots with fresh references and returns the count
actually obtained (fewer than `n` when exhausted). -/
def CentralFreeList.RemoveRange (c : CentralFreeList) (n : Nat) :
    List Nat × CentralFreeList :=
  (c.objs.take n, { c with objs := c.objs.drop n })

/-- `CentralFreeList::length()`: current count of objects held centrally. -/
def CentralFreeList.length (c : CentralFreeList) : Nat := c.objs.length

/-- `CentralFreeList::OverheadBytes()`: diagnostic pass-through. -/
def CentralFreeList.OverheadBytes (c : CentralFreeList) : Nat := c.overhead

/-- `CentralFreeList::GetSpanStats()`: diagnostic pass-through. -/
def CentralFreeList.GetSpanStats (c : CentralFreeList) : SpanStats := c.stats

/-- Modelled from the spec: the per-size-class `TransferCache`
(`transfer_cache_internals.h`, not in this fragment): a bounded buffer
of free object references (`slots`, the valid entries; `length` is
`slots.length`), its current `capacity`, the per-class constant
`max_capacity`, the per-class batch move count
`num_objects_to_move(size_class)` stored as `batch_size`, and the
class's central free list that absorbs overflow and serves misses. -/
structure TransferCache where
  slots : List Nat
  capacity : Nat
  max_capacity : Nat
  batch_size : Nat
  freelist : CentralFreeList
deriving Repr, DecidableEq, Inhabited

/-- `tc_length()`: number of valid entries in the transfer cache. -/
def TransferCache.tc_length (tc : TransferCache) : Nat := tc.slots.length

/-- `central_length()`: length of the class's central free list. -/
def TransferCache.central_length (tc : TransferCache) : Nat :=
  tc.freelist.length

/-- `OverheadBytes()`: diagnostic pass-through to the central list. -/
def TransferCache.OverheadBytes (tc : TransferCache) : Nat :=
  tc.freelist.OverheadBytes

/-- `GetSpanStats()`: diagnostic pass-through to the central list. -/
def TransferCache.GetSpanStats (tc : TransferCache) : SpanStats :=
  tc.freelist.GetSpanStats

/-- Modelled from the spec: `TransferCache::Init(size_class)` assigns the
cache its allotted starting capacity and the per-class constants from the
external size-class table, with an empty buffer and a freshly
initialized central list. -/
def TransferCache.Init (init_capacity max_cap bsize size_class : Nat) :
    TransferCache :=
  { slots := [], capacity := init_capacity, max_capacity := max_cap,
    batch_size := bsize, freelist := CentralFreeList.Init size_class }

/-- Modelled from the spec: `TransferCache::InsertRange(batch, n)`.
If `length + n ≤ capacity`, append all `n` (fast path, central list
untouched).  Otherwise insert as many as fit and forward the remainder
to `CentralFreeList::InsertRange` in one batched call.  No insert is
ever rejected. -/
def TransferCache.InsertRange (tc : TransferCache) (batch : List Nat) :
    TransferCache :=
  if tc.slots.length + batch.length ≤ tc.capacity then
    { tc with slots := tc.slots ++ batch }
  else
    let fit := tc.capacity - tc.slots.length
    { tc with slots := tc.slots ++ batch.take fit,
              freelist := tc.freelist.InsertRange (batch.drop fit) }

/-- The number of objects requested from the central list on a remove
miss: the smallest multiple of the batch move count `bsize` that covers
the `need` outstanding objects. -/
def fetchAmount (bsize need : Nat) : Nat :=
  bsize * ((need + bsize - 1) / bsize)

/-- Modelled from the spec: `TransferCache::RemoveRange(batch, n)`.
If `length ≥ n`, serve entirely from the buffer (fast path).  Otherwise
drain the buffer, pull a multiple of the batch move count from
`CentralFreeList::RemoveRange` into the buffer (growing `capacity`
opportunistically, never past `max_capacity`; objects beyond the grown
capacity flow back to the central list) and complete the request.  When
the central list is exhausted, fewer than `n` objects are returned. -/
def TransferCache.RemoveRange (tc : TransferCache) (n : Nat) :
    List Nat × TransferCache :=
  if n ≤ tc.slots.length then
    (tc.slots.take n, { tc with slots := tc.slots.drop n })
  else
    let need := n - tc.slots.length
    let pulled := tc.freelist.RemoveRange (fetchAmount tc.batch_size need)
    let leftover := pulled.fst.drop need
    let newcap := min tc.max_capacity (max tc.capacity leftover.length)
    (tc.slots ++ pulled.fst.take need,
     { tc with slots := leftover.take newcap,
               capacity := newcap,
               freelist := pulled.snd.InsertRange (leftover.drop newcap) })

/-- Modelled from the spec: `TransferCache::ShrinkCache()` reduces
`capacity` by exactly one slot, failing (returning `false`, state
unchanged) when `length == capacity` leaves no spare slot. -/
def TransferCache.ShrinkCache (tc : TransferCache) : Bool × TransferCache :=
  if tc.slots.length = tc.capacity then (false, tc)
  else (true, { tc with capacity := tc.capacity - 1 })

/-- The per-class cache invariant: `0 ≤ length ≤ capacity ≤ max_capacity`
(the lower bound is inherent to `Nat`). -/
def TransferCache.inv (tc : TransferCache) : Prop :=
  tc.slots.length ≤ tc.capacity ∧ tc.capacity ≤ tc.max_capacity

instance (tc : TransferCache) : Decidable tc.inv := by
  unfold TransferCache.inv; infer_instance

/-- Modelled from the spec: `kNumClasses`, the process-wide number of
size classes (defined in `tcmalloc/common.h`, outside this fragment).
The embedding fixes a representative constant; all theorems are stated
relative to a manager holding this many per-class entries. -/
def kNumClasses : Nat := 86

/-- Indexing a fixed C++ array with an `int` subscript: in bounds when
`0 ≤ i < length`; the `none` branch is the out-of-bounds access the code
never checks for. -/
def getI (l : List α) (i : Int) : Option α :=
  if 0 ≤ i then l[i.toNat]? else none

/-- In-place update through an `int` subscript; out of bounds, `List.set`
leaves the list unchanged (the C++ would be undefined behavior, but
`getI` has already reported `none` on that path). -/
def setI (l : List α) (i : Int) (a : α) : List α :=
  if 0 ≤ i then l.set i.toNat a else l

/-- The full-variant `TransferCacheManager` (`transfer_cache.h` lines
40-97): one `TransferCache` per size class plus the round-robin eviction
cursor `next_to_evict_` (constructed as 1). -/
structure TransferCacheManager where
  cache : List TransferCache
  next_to_evict : Nat
deriving Repr, DecidableEq

/-- The `constexpr` constructor: `kNumClasses` default caches and
`next_to_evict_(1)`. -/
def TransferCacheManager.new : TransferCacheManager :=
  { cache := List.replicate kNumClasses default, next_to_evict := 1 }

/-- `TransferCacheManager::Init()`: `cache_[i].Init(i)` for every class.
The allotted starting capacity, maximum capacity and batch move count
are the externally supplied per-class tables `cap`, `maxc`, `bsize`. -/
def TransferCacheManager.Init (m : TransferCacheManager)
    (cap maxc bsize : Nat → Nat) : TransferCacheManager :=
  let f := fun i => TransferCache.Init (cap i) (maxc i) (bsize i) i
  { m with cache := (List.range m.cache.length).map f }

/-- `TransferCacheManager::InsertRange(size_class, batch, n)`:
`cache_[size_class].InsertRange(batch, n)`. -/
def TransferCacheManager.InsertRange (m : TransferCacheManager)
    (size_class : Int) (batch : List Nat) : Option TransferCacheManager :=
  match getI m.cache size_class with
  | none => none
  | some tc =>
      some { m with cache := setI m.cache size_class (tc.InsertRange batch) }

/-- `TransferCacheManager::RemoveRange(size_class, batch, n)`: returns
`cache_[size_class].RemoveRange(batch, n)`. -/
def TransferCacheManager.RemoveRange (m : TransferCacheManager)
    (size_class : Int) (n : Nat) :
    Option (List Nat × TransferCacheManager) :=
  match getI m.cache size_class with
  | none => none
  | some tc =>
      some ((tc.RemoveRange n).fst,
        { m with cache := setI m.cache size_class (tc.RemoveRange n).snd })

/-- `TransferCacheManager::central_length(size_class)`. -/
def TransferCacheManager.central_length (m : TransferCacheManager)
    (size_class : Int) : Option Nat :=
  (getI m.cache size_class).map TransferCache.central_length

/-- `TransferCacheManager::tc_length(size_class)`. -/
def TransferCacheManager.tc_length (m : TransferCacheManager)
    (size_class : Int) : Option Nat :=
  (getI m.cache size_class).map TransferCache.tc_length

/-- `TransferCacheManager::OverheadBytes(size_class)`. -/
def TransferCacheManager.OverheadBytes (m : TransferCacheManager)
    (size_class : Int) : Option Nat :=
  (getI m.cache size_class).map TransferCache.OverheadBytes

/-- `TransferCacheManager::GetSpanStats(size_class)`. -/
def TransferCacheManager.GetSpanStats (m : TransferCacheManager)
    (size_class : Int) : Option SpanStats :=
  (getI m.cache size_class).map TransferCache.GetSpanStats

/-- `TransferCacheManager::ShrinkCache(size_class)`:
`cache_[size_class].ShrinkCache()`. -/
def TransferCacheManager.ShrinkCache (m : TransferCacheManager)
    (size_class : Int) : Option (Bool × TransferCacheManager) :=
  match getI m.cache size_class with
  | none => none
  | some tc =>
      some ((tc.ShrinkCache).fst,
        { m with cache := setI m.cache size_class (tc.ShrinkCache).snd })

/-- The round-robin candidate order over `[1, n)` starting at `start`:
`start, start+1, …, n-1, 1, …, start-1` (class 0 is never a
candidate). -/
def roundRobin (start n : Nat) : List Nat :=
  (List.range (n - 1)).map (fun i => 1 + (start - 1 + i) % (n - 1))

/-- Whether attempting `ShrinkCache` on candidate class `i` would
succeed; a failed attempt leaves the candidate's cache unchanged, so the
eviction scan below is the first successful candidate. -/
def TransferCacheManager.canShrink (m : TransferCacheManager) (i : Nat) :
    Bool :=
  match m.cache[i]? with
  | some tc => (tc.ShrinkCache).fst
  | none => false

/-- Modelled from the spec: `TransferCacheManager::DetermineSizeClassToEvict`
(implemented in `transfer_cache.cc`, outside this fragment).  Starting
from `next_to_evict_`, scan the classes `[1, N)` in round-robin order,
attempting `ShrinkCache` on each.  The first candidate whose shrink
succeeds is the donor: its cache is shrunk and the cursor is advanced
past it (wrapping over `[1, N)`).  When a full cycle finds no donor,
growth is denied (`none`) and the state is unchanged. -/
def TransferCacheManager.DetermineSizeClassToEvict (m : TransferCacheManager) :
    Option Nat × TransferCacheManager :=
  match (roundRobin m.next_to_evict m.cache.length).find? m.canShrink with
  | some d =>
      match m.cache[d]? with
      | some tc =>
          (some d, { cache := m.cache.set d (tc.ShrinkCache).snd,
                     next_to_evict :=
                       if d + 1 < m.cache.length then d + 1 else 1 })
      | none => (none, m)
  | none => (none, m)

namespace Small

/-- The degenerate (`TCMALLOC_SMALL_BUT_SLOW`) `TransferCacheManager`
(`transfer_cache.h` lines 102-138): only the per-class central free
lists, no transfer-cache storage. -/
structure TransferCacheManager where
  freelist : List CentralFreeList
deriving Repr, DecidableEq

/-- The `constexpr` constructor: `kNumClasses` default central lists. -/
def TransferCacheManager.new : TransferCacheManager :=
  { freelist := List.replicate kNumClasses default }

/-- Degenerate `Init()`: `freelist_[i].Init(i)` for every class — it
only initializes the central lists. -/
def TransferCacheManager.Init (m : TransferCacheManager) :
    TransferCacheManager :=
  { freelist := (List.range m.freelist.length).map CentralFreeList.Init }

/-- Degenerate `InsertRange`: `freelist_[size_class].InsertRange(batch.data(), n)`. -/
def TransferCacheManager.InsertRange (m : TransferCacheManager)
    (size_class : Int) (batch : List Nat) : Option TransferCacheManager :=
  match getI m.freelist size_class with
  | none => none
  | some fl =>
      some { freelist := setI m.freelist size_class (fl.InsertRange batch) }

/-- Degenerate `RemoveRange`: returns
`freelist_[size_class].RemoveRange(batch, n)`. -/
def TransferCacheManager.RemoveRange (m : TransferCacheManager)
    (size_class : Int) (n : Nat) :
    Option (List Nat × TransferCacheManager) :=
  match getI m.freelist size_class with
  | none => none
  | some fl =>
      some ((fl.RemoveRange n).fst,
        { freelist := setI m.freelist size_class (fl.RemoveRange n).snd })

/-- Degenerate `central_length`: `freelist_[size_class].length()`. -/
def TransferCacheManager.central_length (m : TransferCacheManager)
    (size_class : Int) : Option Nat :=
  (getI m.freelist size_class).map CentralFreeList.length

/-- Degenerate `tc_length`: `return 0;` — the argument is never
inspected, so this holds for every integer argument. -/
def TransferCacheManager.tc_length (_m : TransferCacheManager)
    (_size_class : Int) : Nat := 0

/-- Degenerate `OverheadBytes`: `freelist_[size_class].OverheadBytes()`. -/
def TransferCacheManager.OverheadBytes (m : TransferCacheManager)
    (size_class : Int) : Option Nat :=
  (getI m.freelist size_class).map CentralFreeList.OverheadBytes

/-- Degenerate `GetSpanStats`: `freelist_[size_class].GetSpanStats()`. -/
def TransferCacheManager.GetSpanStats (m : TransferCacheManager)
    (size_class : Int) : Option SpanStats :=
  (getI m.freelist size_class).map CentralFreeList.GetSpanStats

end Small

/-- An operation on one per-class cache: the four mutators visible at
this layer.  `init` carries the per-class allotment (starting capacity,
maximum capacity, batch move count). -/
inductive CacheOp where
  | init (c maxc bsize : Nat)
  | insert (batch : List Nat)
  | remove (n : Nat)
  | shrink
deriving Repr, DecidableEq

/-- Apply one operation, returning the objects handed back to the
caller (non-empty only for `remove`) and the new state. -/
def CacheOp.apply (op : CacheOp) (tc : TransferCache) :
    List Nat × TransferCache :=
  match op with
  | .init c maxc bsize => ([], TransferCache.Init c maxc bsize 0)
  | .insert batch => ([], tc.InsertRange batch)
  | .remove n => tc.RemoveRange n
  | .shrink => ([], (tc.ShrinkCache).snd)

/-- Run a sequence of operations, collecting all objects returned to
the caller in order. -/
def runCacheOps : List CacheOp → TransferCache → List Nat × TransferCache
  | [], tc => ([], tc)
  | op :: rest, tc =>
      let r := op.apply tc
      let rs := runCacheOps rest r.snd
      (r.fst ++ rs.fst, rs.snd)

/-- An `init` is valid when the allotted starting capacity respects the
per-class maximum; the other operations are unconstrained. -/
def CacheOp.valid : CacheOp → Prop
  | .init c maxc _ => c ≤ maxc
  | _ => True

instance (op : CacheOp) : Decidable op.valid := by
  cases op <;> simp [CacheOp.valid] <;> infer_instance

/-- Whether the operation is a plain `InsertRange`/`RemoveRange` call. -/
def CacheOp.isXfer : CacheOp → Prop
  | .insert _ => True
  | .remove _ => True
  | _ => False

instance (op : CacheOp) : Decidable op.isXfer := by
  cases op <;> simp [CacheOp.isXfer] <;> infer_instance

/-- All object references a sequence of operations hands in. -/
def insertedObjs : List CacheOp → List Nat
  | [] => []
  | .insert batch :: rest => batch ++ insertedObjs rest
  | _ :: rest => insertedObjs rest

/-- The references recoverable from one class's combined state:
transfer-cache buffer plus central free list, as a multiset. -/
def TransferCache.pool (tc : TransferCache) : Multiset Nat :=
  (tc.slots : Multiset Nat) + (tc.freelist.objs : Multiset Nat)

/-- A hot-path call on the manager: `InsertRange` or `RemoveRange` for
some size class. -/
inductive MgrOp where
  | insert (size_class : Int) (batch : List Nat)
  | remove (size_class : Int) (n : Nat)
deriving Repr, DecidableEq

/-- Run a sequence of hot-path calls on the full-variant manager,
collecting the objects returned to callers.  An out-of-bounds class
would be undefined behavior in the C++; the run model lets such a call
leave the state unchanged. -/
def runFull : List MgrOp → TransferCacheManager →
    List Nat × TransferCacheManager
  | [], m => ([], m)
  | .insert sc batch :: rest, m =>
      match m.InsertRange sc batch with
      | some m1 => runFull rest m1
      | none => runFull rest m
  | .remove sc n :: rest, m =>
      match m.RemoveRange sc n with
      | some r =>
          let rs := runFull rest r.snd
          (r.fst ++ rs.fst, rs.snd)
      | none => runFull rest m

/-- Run a sequence of hot-path calls on the degenerate manager. -/
def runSmall : List MgrOp → Small.TransferCacheManager →
    List Nat × Small.TransferCacheManager
  | [], m => ([], m)
  | .insert sc batch :: rest, m =>
      match m.InsertRange sc batch with
      | some m1 => runSmall rest m1
      | none => runSmall rest m
  | .remove sc n :: rest, m =>
      match m.RemoveRange sc n with
      | some r =>
          let rs := runSmall rest r.snd
          (r.fst ++ rs.fst, rs.snd)
      | none => runSmall rest m

/-- Objects recoverable from class `i` of the full manager (count). -/
def TransferCacheManager.poolCount (m : TransferCacheManager) (i : Nat) :
    Nat :=
  match m.cache[i]? with
  | some tc => tc.slots.length + tc.freelist.objs.length
  | none => 0

/-- Objects recoverable from class `i` of the degenerate manager
(count). -/
def Small.TransferCacheManager.poolCount (m : Small.TransferCacheManager)
    (i : Nat) : Nat :=
  match m.freelist[i]? with
  | some fl => fl.objs.length
  | none => 0

/-- Objects recoverable from class `i` of the full manager, as a
multiset. -/
def TransferCacheManager.poolAt (m : TransferCacheManager) (i : Nat) :
    Multiset Nat :=
  match m.cache[i]? with
  | some tc => tc.pool
  | none => 0

/-- Objects recoverable from class `i` of the degenerate manager, as a
multiset. -/
def Small.TransferCacheManager.poolAt (m : Small.TransferCacheManager)
    (i : Nat) : Multiset Nat :=
  match m.freelist[i]? with
  | some fl => (fl.objs : Multiset Nat)
  | none => 0

/-! ## Helper lemmas -/

theorem le_fetchAmount (bsize need : Nat) (hb : 1 ≤ bsize) :
    need ≤ fetchAmount bsize need := by
  unfold fetchAmount
  have hd := Nat.div_add_mod (need + bsize - 1) bsize
  have hm : (need + bsize - 1) % bsize < bsize := Nat.mod_lt _ (by omega)
  set q := (need + bsize - 1) / bsize with hq
  set r := (need + bsize - 1) % bsize with hr
  set m := bsize * q with hmq
  omega

theorem fetchAmount_mod (bsize need : Nat) :
    fetchAmount bsize need % bsize = 0 :=
  Nat.mul_mod_right bsize _

theorem shrinkCache_of_full (tc : TransferCache)
    (h : tc.slots.length = tc.capacity) : tc.ShrinkCache = (false, tc) := by
  unfold TransferCache.ShrinkCache
  simp [h]

theorem shrinkCache_fst_true_iff (tc : TransferCache) :
    (tc.ShrinkCache).fst = true ↔ tc.slots.length ≠ tc.capacity := by
  unfold TransferCache.ShrinkCache
  split <;> simp_all

theorem shrinkCache_snd_of_true (tc : TransferCache)
    (h : (tc.ShrinkCache).fst = true) :
    (tc.ShrinkCache).snd = { tc with capacity := tc.capacity - 1 } := by
  unfold TransferCache.ShrinkCache at *
  split at h <;> simp_all

theorem init_inv (c maxc bsize sc : Nat) (h : c ≤ maxc) :
    (TransferCache.Init c maxc bsize sc).inv := by
  unfold TransferCache.Init TransferCache.inv
  simp [h]

theorem insertRange_inv (tc : TransferCache) (batch : List Nat)
    (h : tc.inv) : (tc.InsertRange batch).inv := by
  unfold TransferCache.InsertRange TransferCache.inv at *
  split
  · simp only [List.length_append]
    omega
  · simp only [List.length_append, List.length_take]
    omega

theorem removeRange_inv (tc : TransferCache) (n : Nat)
    (h : tc.inv) : (tc.RemoveRange n).snd.inv := by
  unfold TransferCache.RemoveRange TransferCache.inv at *
  split
  · simp only [List.length_drop]
    omega
  · simp only [List.length_take, List.length_drop]
    omega

theorem shrinkCache_inv (tc : TransferCache)
    (h : tc.inv) : (tc.ShrinkCache).snd.inv := by
  unfold TransferCache.ShrinkCache TransferCache.inv at *
  split
  · exact h
  · simp only []
    omega

theorem coe_take_add_drop (l : List Nat) (k : Nat) :
    (↑(l.take k) : Multiset Nat) + ↑(l.drop k) = ↑l := by
  rw [Multiset.coe_add, List.take_append_drop]

theorem insertRange_pool (tc : TransferCache) (batch : List Nat) :
    (tc.InsertRange batch).pool = tc.pool + (batch : Multiset Nat) := by
  unfold TransferCache.InsertRange TransferCache.pool CentralFreeList.InsertRange
  split
  · simp only []
    rw [← Multiset.coe_add]
    abel
  · simp only []
    rw [← Multiset.coe_add, ← Multiset.coe_add]
    conv_rhs => rw [← coe_take_add_drop batch (tc.capacity - tc.slots.length)]
    abel

theorem removeRange_pool (tc : TransferCache) (n : Nat) :
    (tc.RemoveRange n).snd.pool + ((tc.RemoveRange n).fst : Multiset Nat)
      = tc.pool := by
  unfold TransferCache.RemoveRange TransferCache.pool CentralFreeList.RemoveRange
    CentralFreeList.InsertRange
  split
  · simp only []
    conv_rhs => rw [← coe_take_add_drop tc.slots n]
    abel
  · simp only []
    rw [← Multiset.coe_add, ← Multiset.coe_add]
    conv_rhs =>
      rw [← coe_take_add_drop tc.freelist.objs
        (fetchAmount tc.batch_size (n - tc.slots.length))]
      rw [← coe_take_add_drop
        (tc.freelist.objs.take (fetchAmount tc.batch_size (n - tc.slots.length)))
        (n - tc.slots.length)]
      rw [← coe_take_add_drop
        ((tc.freelist.objs.take
          (fetchAmount tc.batch_size (n - tc.slots.length))).drop
            (n - tc.slots.length))
        (min tc.max_capacity (max tc.capacity
          ((tc.freelist.objs.take
            (fetchAmount tc.batch_size (n - tc.slots.length))).drop
              (n - tc.slots.length)).length))]
    abel

theorem shrinkCache_pool (tc : TransferCache) :
    (tc.ShrinkCache).snd.pool = tc.pool := by
  unfold TransferCache.ShrinkCache TransferCache.pool
  split <;> simp only []

theorem pool_card (tc : TransferCache) :
    Multiset.card tc.pool = tc.slots.length + tc.freelist.objs.length := by
  unfold TransferCache.pool
  rw [Multiset.card_add, Multiset.coe_card, Multiset.coe_card]

theorem removeRange_fst_length (tc : TransferCache) (n : Nat)
    (hb : 1 ≤ tc.batch_size) :
    ((tc.RemoveRange n).fst).length
      = min n (tc.slots.length + tc.freelist.objs.length) := by
  unfold TransferCache.RemoveRange CentralFreeList.RemoveRange
  split
  · simp only [List.length_take]
    omega
  · simp only [List.length_append, List.length_take]
    have hf := le_fetchAmount tc.batch_size (n - tc.slots.length) hb
    omega

theorem insertRange_count (tc : TransferCache) (batch : List Nat) :
    (tc.InsertRange batch).slots.length
        + (tc.InsertRange batch).freelist.objs.length
      = tc.slots.length + tc.freelist.objs.length + batch.length := by
  have h := congrArg Multiset.card (insertRange_pool tc batch)
  rw [pool_card, Multiset.card_add, pool_card, Multiset.coe_card] at h
  exact h

theorem removeRange_count (tc : TransferCache) (n : Nat) :
    (tc.RemoveRange n).snd.slots.length
        + (tc.RemoveRange n).snd.freelist.objs.length
        + ((tc.RemoveRange n).fst).length
      = tc.slots.length + tc.freelist.objs.length := by
  have h := congrArg Multiset.card (removeRange_pool tc n)
  rw [Multiset.card_add, pool_card, pool_card, Multiset.coe_card] at h
  exact h

/-! ## C1: the per-class invariant is preserved by every operation -/

/-- C1: for every size class and after every sequence of operations
(`Init`, `InsertRange`, `RemoveRange`, `ShrinkCache`) on its cache, the
state satisfies `0 ≤ length ≤ capacity ≤ max_capacity`; every operation
preserves the invariant (an `Init` is valid when its allotted starting
capacity respects the per-class maximum). -/
theorem transferCache_invariant_preserved (ops : List CacheOp)
    (tc : TransferCache) (h0 : tc.inv) (hv : ∀ op ∈ ops, op.valid) :
    0 ≤ (runCacheOps ops tc).snd.tc_length ∧
    (runCacheOps ops tc).snd.tc_length ≤ (runCacheOps ops tc).snd.capacity ∧
    (runCacheOps ops tc).snd.capacity
      ≤ (runCacheOps ops tc).snd.max_capacity := by
  suffices h : (runCacheOps ops tc).snd.inv from ⟨Nat.zero_le _, h.1, h.2⟩
  induction ops generalizing tc with
  | nil => simpa [runCacheOps] using h0
  | cons op rest ih =>
      simp only [runCacheOps]
      refine ih _ ?_ (fun o ho => hv o (List.mem_cons_of_mem _ ho))
      have hop := hv op (List.mem_cons_self _ _)
      cases op with
      | init c maxc bsize =>
          simpa only [CacheOp.apply] using init_inv c maxc bsize 0 hop
      | insert batch =>
          simpa only [CacheOp.apply] using insertRange_inv tc batch h0
      | remove n =>
          simpa only [CacheOp.apply] using removeRange_inv tc n h0
      | shrink =>
          simpa only [CacheOp.apply] using shrinkCache_inv tc h0

/-- C1 witness: a concrete run through all four operations. -/
theorem transferCache_invariant_preserved_witness :
    (TransferCache.Init 2 3 1 0).inv ∧
    (∀ op ∈ [CacheOp.init 2 3 1, CacheOp.insert [5, 6, 7], CacheOp.remove 1,
      CacheOp.shrink], op.valid) ∧
    (0 ≤ (runCacheOps [CacheOp.init 2 3 1, CacheOp.insert [5, 6, 7],
        CacheOp.remove 1, CacheOp.shrink] (TransferCache.Init 2 3 1 0)).snd.tc_length ∧
     (runCacheOps [CacheOp.init 2 3 1, CacheOp.insert [5, 6, 7],
        CacheOp.remove 1, CacheOp.shrink] (TransferCache.Init 2 3 1 0)).snd.tc_length
       ≤ (runCacheOps [CacheOp.init 2 3 1, CacheOp.insert [5, 6, 7],
          CacheOp.remove 1, CacheOp.shrink] (TransferCache.Init 2 3 1 0)).snd.capacity ∧
     (runCacheOps [CacheOp.init 2 3 1, CacheOp.insert [5, 6, 7],
        CacheOp.remove 1, CacheOp.shrink] (TransferCache.Init 2 3 1 0)).snd.capacity
       ≤ (runCacheOps [CacheOp.init 2 3 1, CacheOp.insert [5, 6, 7],
          CacheOp.remove 1, CacheOp.shrink] (TransferCache.Init 2 3 1 0)).snd.max_capacity) :=
  ⟨by decide, by decide,
   transferCache_invariant_preserved _ _ (by decide) (by decide)⟩

/-! ## C2: conservation of object references -/

theorem conservation_aux (ops : List CacheOp) :
    ∀ (tc : TransferCache), (∀ op ∈ ops, op.isXfer) →
      (runCacheOps ops tc).snd.pool
          + ((runCacheOps ops tc).fst : Multiset Nat)
        = tc.pool + (insertedObjs ops : Multiset Nat) := by
  induction ops with
  | nil => intro tc _; simp [runCacheOps, insertedObjs]
  | cons op rest ih =>
      intro tc h
      cases op with
      | init c maxc bsize => exact absurd (h _ (List.mem_cons_self _ _)) (by
          simp [CacheOp.isXfer])
      | shrink => exact absurd (h _ (List.mem_cons_self _ _)) (by
          simp [CacheOp.isXfer])
      | insert batch =>
          simp only [runCacheOps, CacheOp.apply, insertedObjs, List.nil_append]
          rw [ih _ (fun o ho => h o (List.mem_cons_of_mem _ ho)),
            insertRange_pool, ← Multiset.coe_add]
          abel
      | remove n =>
          simp only [runCacheOps, CacheOp.apply, insertedObjs]
          rw [← Multiset.coe_add]
          have h1 := ih (tc.RemoveRange n).snd
            (fun o ho => h o (List.mem_cons_of_mem _ ho))
          have h2 := removeRange_pool tc n
          calc (runCacheOps rest (tc.RemoveRange n).snd).snd.pool
                + (((tc.RemoveRange n).fst : Multiset Nat)
                  + ((runCacheOps rest (tc.RemoveRange n).snd).fst : Multiset Nat))
              = ((runCacheOps rest (tc.RemoveRange n).snd).snd.pool
                  + ((runCacheOps rest (tc.RemoveRange n).snd).fst : Multiset Nat))
                + ((tc.RemoveRange n).fst : Multiset Nat) := by abel
            _ = ((tc.RemoveRange n).snd.pool
                  + (insertedObjs rest : Multiset Nat))
                + ((tc.RemoveRange n).fst : Multiset Nat) := by rw [h1]
            _ = ((tc.RemoveRange n).snd.pool
                  + ((tc.RemoveRange n).fst : Multiset Nat))
                + (insertedObjs rest : Multiset Nat) := by abel
            _ = tc.pool + (insertedObjs rest : Multiset Nat) := by rw [h2]

/-- C2: for a sequence of `InsertRange`/`RemoveRange` calls on one class,
the references in flight (cache buffer + central list) afterwards, plus
everything returned to callers, are exactly the initial references plus
everything inserted — as a multiset (no reference duplicated or dropped),
and hence also as counts: after + returned = before + inserted. -/
theorem transferCache_conservation (ops : List CacheOp) (tc : TransferCache)
    (h : ∀ op ∈ ops, op.isXfer) :
    (runCacheOps ops tc).snd.pool
        + ((runCacheOps ops tc).fst : Multiset Nat)
      = tc.pool + (insertedObjs ops : Multiset Nat) ∧
    (runCacheOps ops tc).snd.tc_length
        + (runCacheOps ops tc).snd.freelist.objs.length
        + ((runCacheOps ops tc).fst).length
      = tc.tc_length + tc.freelist.objs.length + (insertedObjs ops).length := by
  refine ⟨conservation_aux ops tc h, ?_⟩
  have h := congrArg Multiset.card (conservation_aux ops tc h)
  rw [Multiset.card_add, Multiset.card_add, pool_card, pool_card,
    Multiset.coe_card, Multiset.coe_card] at h
  exact h

/-- C2 witness: a concrete insert/remove sequence. -/
theorem transferCache_conservation_witness :
    (∀ op ∈ [CacheOp.insert [1, 2, 3], CacheOp.remove 2], op.isXfer) ∧
    ((runCacheOps [CacheOp.insert [1, 2, 3], CacheOp.remove 2]
        (TransferCache.Init 2 2 1 0)).snd.pool
        + ((runCacheOps [CacheOp.insert [1, 2, 3], CacheOp.remove 2]
            (TransferCache.Init 2 2 1 0)).fst : Multiset Nat)
      = (TransferCache.Init 2 2 1 0).pool
          + ((insertedObjs [CacheOp.insert [1, 2, 3], CacheOp.remove 2]) : Multiset Nat) ∧
    (runCacheOps [CacheOp.insert [1, 2, 3], CacheOp.remove 2]
        (TransferCache.Init 2 2 1 0)).snd.tc_length
        + (runCacheOps [CacheOp.insert [1, 2, 3], CacheOp.remove 2]
            (TransferCache.Init 2 2 1 0)).snd.freelist.objs.length
        + ((runCacheOps [CacheOp.insert [1, 2, 3], CacheOp.remove 2]
            (TransferCache.Init 2 2 1 0)).fst).length
      = (TransferCache.Init 2 2 1 0).tc_length
          + (TransferCache.Init 2 2 1 0).freelist.objs.length
          + (insertedObjs [CacheOp.insert [1, 2, 3], CacheOp.remove 2]).length) :=
  ⟨by decide, transferCache_conservation _ _ (by decide)⟩

/-! ## C3: InsertRange fast path and overflow forwarding -/

/-- C3: `InsertRange` never rejects an insert.  When `length + n ≤
capacity` it appends all `n` references and leaves the central free list
untouched; otherwise it fills the buffer to capacity with the references
that fit and forwards the remainder to `CentralFreeList::InsertRange`
in one single batched call. -/
theorem transferCache_insertRange_spec (tc : TransferCache)
    (batch : List Nat) (hinv : tc.inv) :
    (tc.slots.length + batch.length ≤ tc.capacity →
      (tc.InsertRange batch).slots = tc.slots ++ batch ∧
      (tc.InsertRange batch).freelist = tc.freelist) ∧
    (tc.capacity < tc.slots.length + batch.length →
      (tc.InsertRange batch).slots
          = tc.slots ++ batch.take (tc.capacity - tc.slots.length) ∧
      (tc.InsertRange batch).slots.length = tc.capacity ∧
      (tc.InsertRange batch).freelist.objs
          = batch.drop (tc.capacity - tc.slots.length) ++ tc.freelist.objs) := by
  constructor
  · intro hfit
    unfold TransferCache.InsertRange
    rw [if_pos hfit]
    exact ⟨rfl, rfl⟩
  · intro hover
    unfold TransferCache.InsertRange
    rw [if_neg (by omega)]
    refine ⟨rfl, ?_, rfl⟩
    simp only [List.length_append, List.length_take]
    have := hinv.1
    omega

/-- C3 witness: overflow at capacity 2 with one slot filled. -/
theorem transferCache_insertRange_spec_witness :
    (TransferCache.mk [9] 2 2 1 ⟨[], 0, ⟨0, 0, 0⟩⟩).inv ∧
    ((TransferCache.mk [9] 2 2 1 ⟨[], 0, ⟨0, 0, 0⟩⟩).InsertRange
        [1, 2]).slots.length = 2 ∧
    ((TransferCache.mk [9] 2 2 1 ⟨[], 0, ⟨0, 0, 0⟩⟩).InsertRange
        [1, 2]).freelist.objs = [2] :=
  ⟨by decide,
   ((transferCache_insertRange_spec (TransferCache.mk [9] 2 2 1
      ⟨[], 0, ⟨0, 0, 0⟩⟩) [1, 2] (by decide)).2 (by decide)).2.1,
   by
    have h := ((transferCache_insertRange_spec (TransferCache.mk [9] 2 2 1
      ⟨[], 0, ⟨0, 0, 0⟩⟩) [1, 2] (by decide)).2 (by decide)).2.2
    simpa using h⟩

/-! ## C4: RemoveRange fast path, batched refill, partial fulfillment -/

/-- C4: `RemoveRange` returns at most `n` references.  With `length ≥ n`
it serves entirely from the buffer and never touches the central list;
with `length < n` it drains the buffer, requests a (nonzero-covering)
multiple of `num_objects_to_move(size_class)` from
`CentralFreeList::RemoveRange`, and altogether hands back
`min n (length + central_length)` references — fewer than `n`, rather
than an error, when the central list is exhausted. -/
theorem transferCache_removeRange_spec (tc : TransferCache) (n : Nat)
    (hb : 1 ≤ tc.batch_size) :
    ((tc.RemoveRange n).fst).length ≤ n ∧
    (n ≤ tc.slots.length →
      (tc.RemoveRange n).fst = tc.slots.take n ∧
      (tc.RemoveRange n).snd.freelist = tc.freelist) ∧
    (tc.slots.length < n →
      fetchAmount tc.batch_size (n - tc.slots.length) % tc.batch_size = 0 ∧
      n - tc.slots.length ≤ fetchAmount tc.batch_size (n - tc.slots.length) ∧
      (tc.RemoveRange n).fst
        = tc.slots ++ tc.freelist.objs.take (n - tc.slots.length)) ∧
    ((tc.RemoveRange n).fst).length
      = min n (tc.slots.length + tc.freelist.objs.length) := by
  refine ⟨?_, ?_, ?_, removeRange_fst_length tc n hb⟩
  · rw [removeRange_fst_length tc n hb]
    exact Nat.min_le_left _ _
  · intro hfast
    unfold TransferCache.RemoveRange
    rw [if_pos hfast]
    exact ⟨rfl, rfl⟩
  · intro hmiss
    refine ⟨fetchAmount_mod _ _, le_fetchAmount _ _ hb, ?_⟩
    unfold TransferCache.RemoveRange CentralFreeList.RemoveRange
    rw [if_neg (by omega)]
    simp only [List.take_take]
    rw [Nat.min_eq_left (le_fetchAmount _ _ hb)]

/-- C4 witness: buffer of one, request of three, central holding one —
the caller gets two references, not an error. -/
theorem transferCache_removeRange_spec_witness :
    1 ≤ (TransferCache.mk [7] 2 2 2 ⟨[8], 0, ⟨0, 0, 0⟩⟩).batch_size ∧
    ((TransferCache.mk [7] 2 2 2 ⟨[8], 0, ⟨0, 0, 0⟩⟩).RemoveRange 3).fst
      = [7, 8] ∧
    (((TransferCache.mk [7] 2 2 2 ⟨[8], 0, ⟨0, 0, 0⟩⟩).RemoveRange
        3).fst).length = 2 :=
  ⟨by decide,
   by
    have h := ((transferCache_removeRange_spec (TransferCache.mk [7] 2 2 2
      ⟨[8], 0, ⟨0, 0, 0⟩⟩) 3 (by decide)).2.2.1 (by decide)).2.2
    simpa using h,
   by
    have h := (transferCache_removeRange_spec (TransferCache.mk [7] 2 2 2
      ⟨[8], 0, ⟨0, 0, 0⟩⟩) 3 (by decide)).2.2.2
    simpa using h⟩

/-! ## C6: ShrinkCache at `length == capacity` -/

/-- C6: `ShrinkCache` on a cache whose `length` equals its `capacity`
returns `false` and changes nothing; whenever it returns `true` it has
reduced `capacity` by exactly one slot (buffer and `max_capacity`
untouched). -/
theorem transferCache_shrinkCache_spec (tc : TransferCache)
    (hinv : tc.inv) :
    (tc.slots.length = tc.capacity → tc.ShrinkCache = (false, tc)) ∧
    ((tc.ShrinkCache).fst = true →
      (tc.ShrinkCache).snd.capacity + 1 = tc.capacity ∧
      (tc.ShrinkCache).snd.slots = tc.slots ∧
      (tc.ShrinkCache).snd.max_capacity = tc.max_capacity) := by
  refine ⟨shrinkCache_of_full tc, ?_⟩
  intro ht
  have hne := (shrinkCache_fst_true_iff tc).mp ht
  rw [shrinkCache_snd_of_true tc ht]
  refine ⟨?_, rfl, rfl⟩
  simp only []
  have := hinv.1
  omega

/-- C6 witness: a full cache refuses to shrink; one with a spare slot
loses exactly one slot of capacity. -/
theorem transferCache_shrinkCache_spec_witness :
    (TransferCache.mk [4, 5] 2 4 1 ⟨[], 0, ⟨0, 0, 0⟩⟩).inv ∧
    (TransferCache.mk [4, 5] 2 4 1 ⟨[], 0, ⟨0, 0, 0⟩⟩).ShrinkCache
      = (false, TransferCache.mk [4, 5] 2 4 1 ⟨[], 0, ⟨0, 0, 0⟩⟩) ∧
    ((TransferCache.mk [4] 2 4 1 ⟨[], 0, ⟨0, 0, 0⟩⟩).ShrinkCache).snd.capacity
        + 1 = 2 :=
  ⟨by decide,
   (transferCache_shrinkCache_spec (TransferCache.mk [4, 5] 2 4 1
      ⟨[], 0, ⟨0, 0, 0⟩⟩) (by decide)).1 (by decide),
   ((transferCache_shrinkCache_spec (TransferCache.mk [4] 2 4 1
      ⟨[], 0, ⟨0, 0, 0⟩⟩) (by decide)).2 (by decide)).1⟩

/-! ## C5: the eviction scan -/

theorem roundRobin_mem_bounds (start n j : Nat)
    (h : j ∈ roundRobin start n) : 1 ≤ j ∧ j < n := by
  unfold roundRobin at h
  rw [List.mem_map] at h
  obtain ⟨i, hi, rfl⟩ := h
  rw [List.mem_range] at hi
  have hlt : (start - 1 + i) % (n - 1) < n - 1 := Nat.mod_lt _ (by omega)
  omega

theorem mem_roundRobin (start n j : Nat) (h1 : 1 ≤ j) (h2 : j < n) :
    j ∈ roundRobin start n := by
  have hm : 0 < n - 1 := by omega
  unfold roundRobin
  rw [List.mem_map]
  refine ⟨(j - 1 + (n - 1) - (start - 1) % (n - 1)) % (n - 1),
    List.mem_range.mpr (Nat.mod_lt _ hm), ?_⟩
  set m := n - 1 with hmdef
  set s := start - 1 with hsdef
  have hsm : s % m < m := Nat.mod_lt _ hm
  have key : (s + (j - 1 + m - s % m) % m) % m = j - 1 := by
    rw [Nat.add_mod, Nat.mod_mod_of_dvd _ dvd_rfl, ← Nat.add_mod]
    have hd := Nat.div_add_mod s m
    have hsplit : s + (j - 1 + m - s % m) = m * (s / m) + (j - 1 + m) := by
      omega
    rw [hsplit, Nat.mul_add_mod, Nat.add_mod_right]
    exact Nat.mod_eq_of_lt (by omega)
  rw [key]
  omega

/-- C5: under a cursor in `[1, N)`, `DetermineSizeClassToEvict` keeps the
cursor in `[1, N)`; a returned donor `d` lies in `[1, N)` (class 0 is
never chosen), its `ShrinkCache` succeeded, only its cache was modified,
and the cursor is advanced past `d` (with wraparound), so repeated
requests do not perpetually target the same class; when the scan returns
no donor, the state is unchanged (growth denied, no panic) and after the
full cycle every candidate class was at `length == capacity`. -/
theorem determineSizeClassToEvict_spec (m : TransferCacheManager)
    (hn : 2 ≤ m.cache.length)
    (hc1 : 1 ≤ m.next_to_evict) (hc2 : m.next_to_evict < m.cache.length) :
    (1 ≤ (m.DetermineSizeClassToEvict).snd.next_to_evict ∧
      (m.DetermineSizeClassToEvict).snd.next_to_evict < m.cache.length) ∧
    (∀ d, (m.DetermineSizeClassToEvict).fst = some d →
      1 ≤ d ∧ d < m.cache.length ∧
      (m.DetermineSizeClassToEvict).snd.next_to_evict
          = (if d + 1 < m.cache.length then d + 1 else 1) ∧
      ∃ tc, m.cache[d]? = some tc ∧ (tc.ShrinkCache).fst = true ∧
        (m.DetermineSizeClassToEvict).snd.cache
            = m.cache.set d (tc.ShrinkCache).snd) ∧
    ((m.DetermineSizeClassToEvict).fst = none →
      (m.DetermineSizeClassToEvict).snd = m ∧
      ∀ i, 1 ≤ i → i < m.cache.length →
        ∀ tc, m.cache[i]? = some tc → tc.slots.length = tc.capacity) := by
  unfold TransferCacheManager.DetermineSizeClassToEvict
  cases hfind : (roundRobin m.next_to_evict m.cache.length).find? m.canShrink with
  | none =>
      simp only []
      refine ⟨⟨hc1, hc2⟩, ?_, ?_⟩
      · intro d hd
        exact absurd hd (by simp)
      · intro _
        refine ⟨by simp, ?_⟩
        intro i hi1 hi2 tc htc
        have hmem := mem_roundRobin m.next_to_evict m.cache.length i hi1 hi2
        have hnp := List.find?_eq_none.mp hfind i hmem
        unfold TransferCacheManager.canShrink at hnp
        rw [htc] at hnp
        by_contra hne
        exact hnp ((shrinkCache_fst_true_iff tc).mpr hne)
  | some d =>
      have hdmem := List.mem_of_find?_eq_some hfind
      have hbounds := roundRobin_mem_bounds _ _ _ hdmem
      have hp := List.find?_some hfind
      cases hget : m.cache[d]? with
      | none =>
          rw [List.getElem?_eq_none_iff] at hget
          exfalso
          omega
      | some tc =>
          unfold TransferCacheManager.canShrink at hp
          rw [hget] at hp
          simp only [hget]
          refine ⟨?_, ?_, ?_⟩
          · constructor <;> split <;> omega
          · intro d' hd'
            have hdd : d = d' := by
              simpa using hd'
            subst hdd
            exact ⟨by omega, by omega, rfl, tc, hget, hp, rfl⟩
          · intro hnone
            exact absurd hnone (by simp)

/-- The concrete manager for the C5 witness: class 1 is at capacity,
class 2 has a spare slot. -/
def evictWitnessMgr : TransferCacheManager :=
  { cache := [⟨[], 0, 0, 1, ⟨[], 0, ⟨0, 0, 0⟩⟩⟩,
              ⟨[3], 1, 1, 1, ⟨[], 0, ⟨0, 0, 0⟩⟩⟩,
              ⟨[], 2, 2, 1, ⟨[], 0, ⟨0, 0, 0⟩⟩⟩],
    next_to_evict := 1 }

/-- C5 witness: on `evictWitnessMgr` the scan skips the full class 1,
picks class 2 as donor and wraps the cursor back to 1. -/
theorem determineSizeClassToEvict_spec_witness :
    2 ≤ evictWitnessMgr.cache.length ∧
    1 ≤ evictWitnessMgr.next_to_evict ∧
    evictWitnessMgr.next_to_evict < evictWitnessMgr.cache.length ∧
    (1 ≤ (evictWitnessMgr.DetermineSizeClassToEvict).snd.next_to_evict ∧
      (evictWitnessMgr.DetermineSizeClassToEvict).snd.next_to_evict
        < evictWitnessMgr.cache.length) ∧
    (evictWitnessMgr.DetermineSizeClassToEvict).fst = some 2 :=
  ⟨by decide, by decide, by decide,
   (determineSizeClassToEvict_spec evictWitnessMgr (by decide) (by decide)
     (by decide)).1,
   by decide⟩

/-! ## C7, C9, C10: dispatch, degenerate forwarding, array indexing -/

theorem exists_getI_eq_some (l : List α) (i : Int) (h0 : 0 ≤ i)
    (h1 : i.toNat < l.length) : ∃ a, getI l i = some a := by
  unfold getI
  rw [if_pos h0]
  cases hg : l[i.toNat]? with
  | none =>
      rw [List.getElem?_eq_none_iff] at hg
      omega
  | some a => exact ⟨a, rfl⟩

theorem getI_setI_ne (l : List α) (i j : Int) (a : α) (h : j ≠ i) :
    getI (setI l i a) j = getI l j := by
  unfold getI setI
  by_cases hj : 0 ≤ j
  · by_cases hi : 0 ≤ i
    · rw [if_pos hj, if_pos hi, if_pos hj]
      exact List.getElem?_set_ne (by omega)
    · rw [if_neg hi]
  · rw [if_neg hj, if_neg hj]

/-- C7: in the full variant, `InsertRange` and `RemoveRange` are pure
dispatch: for a valid `size_class` they apply exactly the corresponding
per-class cache's operation with the same arguments (`RemoveRange`
returning exactly that cache's result) and leave every other class's
cache untouched. -/
theorem manager_dispatch_spec (m : TransferCacheManager) (sc : Int)
    (batch : List Nat) (n : Nat) (tc : TransferCache)
    (h : getI m.cache sc = some tc) :
    m.InsertRange sc batch
        = some { m with cache := setI m.cache sc (tc.InsertRange batch) } ∧
    m.RemoveRange sc n
        = some ((tc.RemoveRange n).fst,
            { m with cache := setI m.cache sc (tc.RemoveRange n).snd }) ∧
    (∀ j : Int, j ≠ sc → ∀ m1, m.InsertRange sc batch = some m1 →
        getI m1.cache j = getI m.cache j) ∧
    (∀ j : Int, j ≠ sc → ∀ r, m.RemoveRange sc n = some r →
        getI r.snd.cache j = getI m.cache j) := by
  have hins : m.InsertRange sc batch
      = some { m with cache := setI m.cache sc (tc.InsertRange batch) } := by
    unfold TransferCacheManager.InsertRange
    simp only [h]
  have hrem : m.RemoveRange sc n
      = some ((tc.RemoveRange n).fst,
          { m with cache := setI m.cache sc (tc.RemoveRange n).snd }) := by
    unfold TransferCacheManager.RemoveRange
    simp only [h]
  refine ⟨hins, hrem, ?_, ?_⟩
  · intro j hj m1 hm1
    rw [hins] at hm1
    cases hm1
    exact getI_setI_ne _ _ _ _ hj
  · intro j hj r hr
    rw [hrem] at hr
    cases hr
    exact getI_setI_ne _ _ _ _ hj

/-- The concrete manager for the C7 witness. -/
def dispatchWitnessMgr : TransferCacheManager :=
  { cache := [⟨[], 0, 0, 1, ⟨[], 0, ⟨0, 0, 0⟩⟩⟩,
              ⟨[7], 2, 2, 1, ⟨[9], 0, ⟨0, 0, 0⟩⟩⟩],
    next_to_evict := 1 }

/-- C7 witness: dispatch on class 1 of a two-class manager. -/
theorem manager_dispatch_spec_witness :
    getI dispatchWitnessMgr.cache 1
        = some ⟨[7], 2, 2, 1, ⟨[9], 0, ⟨0, 0, 0⟩⟩⟩ ∧
    dispatchWitnessMgr.InsertRange 1 [5]
        = some { dispatchWitnessMgr with
            cache := setI dispatchWitnessMgr.cache 1
              ((⟨[7], 2, 2, 1, ⟨[9], 0, ⟨0, 0, 0⟩⟩⟩ :
                TransferCache).InsertRange [5]) } :=
  ⟨by decide,
   (manager_dispatch_spec dispatchWitnessMgr 1 [5] 1
      ⟨[7], 2, 2, 1, ⟨[9], 0, ⟨0, 0, 0⟩⟩⟩ (by decide)).1⟩

/-- C9: in the degenerate variant, `InsertRange`/`RemoveRange` forward
directly to the class's `CentralFreeList` (`RemoveRange` returning
exactly the central list's result), `tc_length` returns 0 for every
integer argument (it never inspects it), and `Init` only initializes the
central free lists. -/
theorem small_manager_forwarding_spec (m : Small.TransferCacheManager)
    (sc : Int) (batch : List Nat) (n : Nat) (fl : CentralFreeList)
    (h : getI m.freelist sc = some fl) :
    m.InsertRange sc batch
        = some ⟨setI m.freelist sc (fl.InsertRange batch)⟩ ∧
    m.RemoveRange sc n
        = some ((fl.RemoveRange n).fst,
            ⟨setI m.freelist sc (fl.RemoveRange n).snd⟩) ∧
    (∀ j : Int, m.tc_length j = 0) ∧
    (m.Init).freelist
        = (List.range m.freelist.length).map CentralFreeList.Init := by
  refine ⟨?_, ?_, fun j => rfl, rfl⟩
  · unfold Small.TransferCacheManager.InsertRange
    simp only [h]
  · unfold Small.TransferCacheManager.RemoveRange
    simp only [h]

/-- The concrete degenerate manager for the C9 witness. -/
def smallWitnessMgr : Small.TransferCacheManager :=
  { freelist := [⟨[], 0, ⟨0, 0, 0⟩⟩, ⟨[4, 5], 0, ⟨0, 0, 0⟩⟩] }

/-- C9 witness: forwarding on class 1 of a two-class degenerate
manager. -/
theorem small_manager_forwarding_spec_witness :
    getI smallWitnessMgr.freelist 1 = some ⟨[4, 5], 0, ⟨0, 0, 0⟩⟩ ∧
    smallWitnessMgr.RemoveRange 1 1
        = some (((⟨[4, 5], 0, ⟨0, 0, 0⟩⟩ : CentralFreeList).RemoveRange 1).fst,
            ⟨setI smallWitnessMgr.freelist 1
              ((⟨[4, 5], 0, ⟨0, 0, 0⟩⟩ : CentralFreeList).RemoveRange 1).snd⟩) ∧
    smallWitnessMgr.tc_length 7 = 0 :=
  ⟨by decide,
   (small_manager_forwarding_spec smallWitnessMgr 1 [] 1
      ⟨[4, 5], 0, ⟨0, 0, 0⟩⟩ (by decide)).2.1,
   (small_manager_forwarding_spec smallWitnessMgr 1 [] 1
      ⟨[4, 5], 0, ⟨0, 0, 0⟩⟩ (by decide)).2.2.1 7⟩

/-- C10: every public per-class accessor of both variants indexes the
fixed `kNumClasses`-entry array with `size_class`, unchecked; under the
precondition `0 ≤ size_class < kNumClasses` the access is in bounds, so
the out-of-bounds branch of the embedding is unreachable. -/
theorem manager_indexing_in_bounds (mf : TransferCacheManager)
    (ms : Small.TransferCacheManager) (sc : Int) (batch : List Nat) (n : Nat)
    (h0 : 0 ≤ sc) (h1 : sc < (kNumClasses : Int))
    (hf : mf.cache.length = kNumClasses)
    (hs : ms.freelist.length = kNumClasses) :
    (mf.InsertRange sc batch).isSome ∧ (mf.RemoveRange sc n).isSome ∧
    (mf.central_length sc).isSome ∧ (mf.tc_length sc).isSome ∧
    (mf.OverheadBytes sc).isSome ∧ (mf.GetSpanStats sc).isSome ∧
    (ms.InsertRange sc batch).isSome ∧ (ms.RemoveRange sc n).isSome ∧
    (ms.central_length sc).isSome ∧ (ms.OverheadBytes sc).isSome ∧
    (ms.GetSpanStats sc).isSome := by
  obtain ⟨tc, htc⟩ := exists_getI_eq_some mf.cache sc h0 (by omega)
  obtain ⟨fl, hfl⟩ := exists_getI_eq_some ms.freelist sc h0 (by omega)
  refine ⟨?_, ?_, ?_, ?_, ?_, ?_, ?_, ?_, ?_, ?_, ?_⟩ <;>
    simp only [TransferCacheManager.InsertRange,
      TransferCacheManager.RemoveRange, TransferCacheManager.central_length,
      TransferCacheManager.tc_length, TransferCacheManager.OverheadBytes,
      TransferCacheManager.GetSpanStats, Small.TransferCacheManager.InsertRange,
      Small.TransferCacheManager.RemoveRange,
      Small.TransferCacheManager.central_length,
      Small.TransferCacheManager.OverheadBytes,
      Small.TransferCacheManager.GetSpanStats, htc, hfl] <;>
    simp

/-- C10 witness: class 85 of freshly constructed managers of both
variants. -/
theorem manager_indexing_in_bounds_witness :
    ((0 : Int) ≤ 85 ∧ (85 : Int) < (kNumClasses : Int) ∧
      TransferCacheManager.new.cache.length = kNumClasses ∧
      Small.TransferCacheManager.new.freelist.length = kNumClasses) ∧
    (TransferCacheManager.new.InsertRange 85 [3]).isSome ∧
    (Small.TransferCacheManager.new.RemoveRange 85 2).isSome :=
  ⟨⟨by decide, by decide, by decide, by decide⟩,
   (manager_indexing_in_bounds TransferCacheManager.new
      Small.TransferCacheManager.new 85 [3] 2 (by decide) (by decide)
      (by decide) (by decide)).1,
   (manager_indexing_in_bounds TransferCacheManager.new
      Small.TransferCacheManager.new 85 [3] 2 (by decide) (by decide)
      (by decide) (by decide)).2.2.2.2.2.2.2.1⟩

/-! ## C8: degenerate-mode equivalence -/

theorem getI_eq_none_iff (l : List α) (i : Int) :
    getI l i = none ↔ (i < 0 ∨ (l.length : Int) ≤ i) := by
  unfold getI
  by_cases h : 0 ≤ i
  · rw [if_pos h, List.getElem?_eq_none_iff]
    omega
  · rw [if_neg h]
    constructor
    · intro _
      omega
    · intro _
      rfl

theorem getI_eq_some_elim {l : List α} {i : Int} {a : α}
    (h : getI l i = some a) : 0 ≤ i ∧ l[i.toNat]? = some a := by
  unfold getI at h
  split at h
  · exact ⟨by assumption, h⟩
  · exact absurd h (by simp)

theorem getElem?_some_lt {l : List α} {k : Nat} {a : α}
    (h : l[k]? = some a) : k < l.length := by
  by_contra hk
  rw [List.getElem?_eq_none_iff.mpr (by omega)] at h
  exact absurd h (by simp)

theorem setI_length (l : List α) (i : Int) (a : α) :
    (setI l i a).length = l.length := by
  unfold setI
  split <;> simp

theorem setI_getElem_self {l : List α} {i : Int} (a : α) (h0 : 0 ≤ i)
    (h1 : i.toNat < l.length) : (setI l i a)[i.toNat]? = some a := by
  unfold setI
  rw [if_pos h0]
  simp [List.getElem?_set_self', h1]

theorem setI_getElem_ne {l : List α} {i : Int} (a : α) (k : Nat)
    (hk : k ≠ i.toNat) : (setI l i a)[k]? = l[k]? := by
  unfold setI
  split
  · exact List.getElem?_set_ne (fun he => hk he.symm)
  · rfl

theorem insertRange_batch_size (tc : TransferCache) (batch : List Nat) :
    (tc.InsertRange batch).batch_size = tc.batch_size := by
  unfold TransferCache.InsertRange
  split <;> rfl

theorem removeRange_batch_size (tc : TransferCache) (n : Nat) :
    ((tc.RemoveRange n).snd).batch_size = tc.batch_size := by
  unfold TransferCache.RemoveRange
  split <;> rfl

theorem cfl_insertRange_length (c : CentralFreeList) (batch : List Nat) :
    (c.InsertRange batch).objs.length = c.objs.length + batch.length := by
  unfold CentralFreeList.InsertRange
  simp only [List.length_append]
  omega

theorem cfl_removeRange_lengths (c : CentralFreeList) (n : Nat) :
    ((c.RemoveRange n).fst).length = min n c.objs.length ∧
    ((c.RemoveRange n).snd).objs.length
      = c.objs.length - min n c.objs.length := by
  unfold CentralFreeList.RemoveRange
  simp
  omega

/-- The full-variant manager for the C8 counterexample: class 1 has a
one-slot cache; combined recoverable state starts empty, matching
`cexSmallMgr`. -/
def cexFullMgr : TransferCacheManager :=
  { cache := [⟨[], 0, 0, 1, ⟨[], 0, ⟨0, 0, 0⟩⟩⟩,
              ⟨[], 1, 1, 1, ⟨[], 0, ⟨0, 0, 0⟩⟩⟩],
    next_to_evict := 1 }

/-- The degenerate manager for the C8 counterexample. -/
def cexSmallMgr : Small.TransferCacheManager :=
  { freelist := [⟨[], 0, ⟨0, 0, 0⟩⟩, ⟨[], 0, ⟨0, 0, 0⟩⟩] }

/-- The C8 counterexample call sequence on class 1. -/
def cexOps : List MgrOp :=
  [.insert 1 [10], .insert 1 [11], .remove 1 1]

/-- C8 counterexample: starting from identical recoverable state (both
empty), after `Insert [10]; Insert [11]; Remove 1` on class 1 the full
variant's combined cache+central state holds reference 11 (10 was
buffered and returned to the caller) while the degenerate variant's
holds reference 10 (11 was at the head of the central list) — the final
multisets differ, refuting the claim as stated. -/
theorem degenerate_equivalence_counterexample :
    cexFullMgr.poolAt 1 = cexSmallMgr.poolAt 1 ∧
    cexFullMgr.poolAt 0 = cexSmallMgr.poolAt 0 ∧
    (runFull cexOps cexFullMgr).snd.poolAt 1 = {11} ∧
    (runSmall cexOps cexSmallMgr).snd.poolAt 1 = {10} ∧
    ¬ ((runFull cexOps cexFullMgr).snd.poolAt 1
        = (runSmall cexOps cexSmallMgr).snd.poolAt 1) := by
  decide

theorem setI_mem {l : List α} {i : Int} {a b : α} (h : b ∈ setI l i a) :
    b ∈ l ∨ b = a := by
  unfold setI at h
  split at h
  · exact List.mem_or_eq_of_mem_set h
  · exact Or.inl h

theorem full_insertRange_none_iff (m : TransferCacheManager) (sc : Int)
    (batch : List Nat) :
    m.InsertRange sc batch = none ↔ getI m.cache sc = none := by
  unfold TransferCacheManager.InsertRange
  cases getI m.cache sc <;> simp

theorem full_removeRange_none_iff (m : TransferCacheManager) (sc : Int)
    (n : Nat) :
    m.RemoveRange sc n = none ↔ getI m.cache sc = none := by
  unfold TransferCacheManager.RemoveRange
  cases getI m.cache sc <;> simp

theorem small_insertRange_none_iff (m : Small.TransferCacheManager)
    (sc : Int) (batch : List Nat) :
    m.InsertRange sc batch = none ↔ getI m.freelist sc = none := by
  unfold Small.TransferCacheManager.InsertRange
  cases getI m.freelist sc <;> simp

theorem small_removeRange_none_iff (m : Small.TransferCacheManager)
    (sc : Int) (n : Nat) :
    m.RemoveRange sc n = none ↔ getI m.freelist sc = none := by
  unfold Small.TransferCacheManager.RemoveRange
  cases getI m.freelist sc <;> simp

theorem full_insert_poolCounts (m : TransferCacheManager) (sc : Int)
    (batch : List Nat) (tc : TransferCache) (h : getI m.cache sc = some tc)
    (m1 : TransferCacheManager) (hm1 : m.InsertRange sc batch = some m1) :
    m1.cache.length = m.cache.length ∧
    m1.poolCount sc.toNat = m.poolCount sc.toNat + batch.length ∧
    (∀ k, k ≠ sc.toNat → m1.poolCount k = m.poolCount k) ∧
    (∀ tc1 ∈ m1.cache, tc1 ∈ m.cache ∨ tc1 = tc.InsertRange batch) := by
  obtain ⟨h0, hget⟩ := getI_eq_some_elim h
  have hlt := getElem?_some_lt hget
  unfold TransferCacheManager.InsertRange at hm1
  simp only [h, Option.some.injEq] at hm1
  subst hm1
  refine ⟨setI_length _ _ _, ?_, ?_, ?_⟩
  · unfold TransferCacheManager.poolCount
    simp only [setI_getElem_self _ h0 hlt, hget]
    exact insertRange_count tc batch
  · intro k hk
    unfold TransferCacheManager.poolCount
    simp only [setI_getElem_ne _ k hk]
  · intro tc1 htc1
    exact setI_mem htc1

theorem full_remove_poolCounts (m : TransferCacheManager) (sc : Int)
    (n : Nat) (tc : TransferCache) (h : getI m.cache sc = some tc)
    (hb : 1 ≤ tc.batch_size) (out : List Nat) (m1 : TransferCacheManager)
    (hm1 : m.RemoveRange sc n = some (out, m1)) :
    m1.cache.length = m.cache.length ∧
    out.length = min n (m.poolCount sc.toNat) ∧
    m1.poolCount sc.toNat = m.poolCount sc.toNat - out.length ∧
    (∀ k, k ≠ sc.toNat → m1.poolCount k = m.poolCount k) ∧
    (∀ tc1 ∈ m1.cache, tc1 ∈ m.cache ∨ tc1 = (tc.RemoveRange n).snd) := by
  obtain ⟨h0, hget⟩ := getI_eq_some_elim h
  have hlt := getElem?_some_lt hget
  unfold TransferCacheManager.RemoveRange at hm1
  simp only [h, Option.some.injEq, Prod.mk.injEq] at hm1
  obtain ⟨hout, hm1⟩ := hm1
  subst hout
  subst hm1
  have hpc : m.poolCount sc.toNat
      = tc.slots.length + tc.freelist.objs.length := by
    unfold TransferCacheManager.poolCount
    simp only [hget]
  refine ⟨setI_length _ _ _, ?_, ?_, ?_, ?_⟩
  · rw [hpc, removeRange_fst_length tc n hb]
  · unfold TransferCacheManager.poolCount
    simp only [setI_getElem_self _ h0 hlt, hget]
    have hc := removeRange_count tc n
    omega
  · intro k hk
    unfold TransferCacheManager.poolCount
    simp only [setI_getElem_ne _ k hk]
  · intro tc1 htc1
    exact setI_mem htc1

theorem small_insert_poolCounts (m : Small.TransferCacheManager) (sc : Int)
    (batch : List Nat) (fl : CentralFreeList)
    (h : getI m.freelist sc = some fl) (m1 : Small.TransferCacheManager)
    (hm1 : m.InsertRange sc batch = some m1) :
    m1.freelist.length = m.freelist.length ∧
    m1.poolCount sc.toNat = m.poolCount sc.toNat + batch.length ∧
    (∀ k, k ≠ sc.toNat → m1.poolCount k = m.poolCount k) := by
  obtain ⟨h0, hget⟩ := getI_eq_some_elim h
  have hlt := getElem?_some_lt hget
  unfold Small.TransferCacheManager.InsertRange at hm1
  simp only [h, Option.some.injEq] at hm1
  subst hm1
  refine ⟨setI_length _ _ _, ?_, ?_⟩
  · unfold Small.TransferCacheManager.poolCount
    simp only [setI_getElem_self _ h0 hlt, hget]
    exact cfl_insertRange_length fl batch
  · intro k hk
    unfold Small.TransferCacheManager.poolCount
    simp only [setI_getElem_ne _ k hk]

theorem small_remove_poolCounts (m : Small.TransferCacheManager) (sc : Int)
    (n : Nat) (fl : CentralFreeList) (h : getI m.freelist sc = some fl)
    (out : List Nat) (m1 : Small.TransferCacheManager)
    (hm1 : m.RemoveRange sc n = some (out, m1)) :
    m1.freelist.length = m.freelist.length ∧
    out.length = min n (m.poolCount sc.toNat) ∧
    m1.poolCount sc.toNat = m.poolCount sc.toNat - out.length ∧
    (∀ k, k ≠ sc.toNat → m1.poolCount k = m.poolCount k) := by
  obtain ⟨h0, hget⟩ := getI_eq_some_elim h
  have hlt := getElem?_some_lt hget
  unfold Small.TransferCacheManager.RemoveRange at hm1
  simp only [h, Option.some.injEq, Prod.mk.injEq] at hm1
  obtain ⟨hout, hm1⟩ := hm1
  subst hout
  subst hm1
  have hpc : m.poolCount sc.toNat = fl.objs.length := by
    unfold Small.TransferCacheManager.poolCount
    simp only [hget]
  have hc := cfl_removeRange_lengths fl n
  refine ⟨setI_length _ _ _, ?_, ?_, ?_⟩
  · rw [hpc, hc.1]
  · unfold Small.TransferCacheManager.poolCount
    simp only [setI_getElem_self _ h0 hlt, hget]
    omega
  · intro k hk
    unfold Small.TransferCacheManager.poolCount
    simp only [setI_getElem_ne _ k hk]

theorem equivalence_counts_aux (ops : List MgrOp) :
    ∀ (mf : TransferCacheManager) (ms : Small.TransferCacheManager),
      mf.cache.length = ms.freelist.length →
      (∀ tc ∈ mf.cache, 1 ≤ tc.batch_size) →
      (∀ i, mf.poolCount i = ms.poolCount i) →
      (∀ i, (runFull ops mf).snd.poolCount i
          = (runSmall ops ms).snd.poolCount i) ∧
      ((runFull ops mf).fst).length = ((runSmall ops ms).fst).length := by
  induction ops with
  | nil =>
      intro mf ms hlen hb hpool
      exact ⟨hpool, rfl⟩
  | cons op rest ih =>
      intro mf ms hlen hb hpool
      cases op with
      | insert sc batch =>
          cases hgf : getI mf.cache sc with
          | none =>
              have hgs : getI ms.freelist sc = none := by
                rw [getI_eq_none_iff] at hgf ⊢
                omega
              have h1 : mf.InsertRange sc batch = none :=
                (full_insertRange_none_iff _ _ _).mpr hgf
              have h2 : ms.InsertRange sc batch = none :=
                (small_insertRange_none_iff _ _ _).mpr hgs
              simp only [runFull, runSmall, h1, h2]
              exact ih mf ms hlen hb hpool
          | some tc =>
              obtain ⟨h0, hget⟩ := getI_eq_some_elim hgf
              have hlt := getElem?_some_lt hget
              obtain ⟨fl, hgs⟩ : ∃ fl, getI ms.freelist sc = some fl := by
                cases hg2 : getI ms.freelist sc with
                | none =>
                    exfalso
                    rw [getI_eq_none_iff] at hg2
                    omega
                | some fl => exact ⟨fl, rfl⟩
              obtain ⟨m1, hm1⟩ : ∃ m1, mf.InsertRange sc batch = some m1 := by
                unfold TransferCacheManager.InsertRange
                simp only [hgf]
                exact ⟨_, rfl⟩
              obtain ⟨s1, hs1⟩ : ∃ s1, ms.InsertRange sc batch = some s1 := by
                unfold Small.TransferCacheManager.InsertRange
                simp only [hgs]
                exact ⟨_, rfl⟩
              have F := full_insert_poolCounts mf sc batch tc hgf m1 hm1
              have S := small_insert_poolCounts ms sc batch fl hgs s1 hs1
              simp only [runFull, runSmall, hm1, hs1]
              apply ih m1 s1
              · rw [F.1, S.1]
                exact hlen
              · intro tc1 htc1
                rcases F.2.2.2 tc1 htc1 with hmem | heq
                · exact hb tc1 hmem
                · rw [heq, insertRange_batch_size]
                  exact hb tc (List.getElem?_mem hget)
              · intro k
                by_cases hk : k = sc.toNat
                · subst hk
                  rw [F.2.1, S.2.1, hpool]
                · rw [F.2.2.1 k hk, S.2.2 k hk]
                  exact hpool k
      | remove sc n =>
          cases hgf : getI mf.cache sc with
          | none =>
              have hgs : getI ms.freelist sc = none := by
                rw [getI_eq_none_iff] at hgf ⊢
                omega
              have h1 : mf.RemoveRange sc n = none :=
                (full_removeRange_none_iff _ _ _).mpr hgf
              have h2 : ms.RemoveRange sc n = none :=
                (small_removeRange_none_iff _ _ _).mpr hgs
              simp only [runFull, runSmall, h1, h2]
              exact ih mf ms hlen hb hpool
          | some tc =>
              obtain ⟨h0, hget⟩ := getI_eq_some_elim hgf
              have hlt := getElem?_some_lt hget
              obtain ⟨fl, hgs⟩ : ∃ fl, getI ms.freelist sc = some fl := by
                cases hg2 : getI ms.freelist sc with
                | none =>
                    exfalso
                    rw [getI_eq_none_iff] at hg2
                    omega
                | some fl => exact ⟨fl, rfl⟩
              obtain ⟨fout, m1, hm1⟩ :
                  ∃ fout m1, mf.RemoveRange sc n = some (fout, m1) := by
                unfold TransferCacheManager.RemoveRange
                simp only [hgf]
                exact ⟨_, _, rfl⟩
              obtain ⟨sout, s1, hs1⟩ :
                  ∃ sout s1, ms.RemoveRange sc n = some (sout, s1) := by
                unfold Small.TransferCacheManager.RemoveRange
                simp only [hgs]
                exact ⟨_, _, rfl⟩
              have F := full_remove_poolCounts mf sc n tc hgf
                (hb tc (List.getElem?_mem hget)) fout m1 hm1
              have S := small_remove_poolCounts ms sc n fl hgs sout s1 hs1
              have hout : fout.length = sout.length := by
                rw [F.2.1, S.2.1, hpool]
              have hrec : m1.cache.length = s1.freelist.length := by
                rw [F.1, S.1]
                exact hlen
              have hbrec : ∀ tc1 ∈ m1.cache, 1 ≤ tc1.batch_size := by
                intro tc1 htc1
                rcases F.2.2.2.2 tc1 htc1 with hmem | heq
                · exact hb tc1 hmem
                · rw [heq, removeRange_batch_size]
                  exact hb tc (List.getElem?_mem hget)
              have hprec : ∀ i, m1.poolCount i = s1.poolCount i := by
                intro k
                by_cases hk : k = sc.toNat
                · subst hk
                  rw [F.2.2.1, S.2.2.1, hpool, hout]
                · rw [F.2.2.2.1 k hk, S.2.2.2 k hk]
                  exact hpool k
              have hih := ih m1 s1 hrec hbrec hprec
              simp only [runFull, runSmall, hm1, hs1]
              refine ⟨hih.1, ?_⟩
              simp only [List.length_append]
              rw [hout, hih.2]

/-- C8 (amended): for any sequence of `InsertRange`/`RemoveRange` calls
starting from states with equal per-class recoverable object counts, the
degenerate and full variants keep the per-class counts of references
recoverable from the combined cache-plus-central state equal (and return
equally many references to callers), with `tc_length` always 0 in
degenerate mode.  The counterexample shows the original claim's
"same multiset" is too strong: the full variant's buffering changes
which references are handed out, so only the counts agree. -/
theorem degenerate_equivalence_counts (ops : List MgrOp)
    (mf : TransferCacheManager) (ms : Small.TransferCacheManager)
    (hlen : mf.cache.length = ms.freelist.length)
    (hb : ∀ tc ∈ mf.cache, 1 ≤ tc.batch_size)
    (hpool : ∀ i, mf.poolCount i = ms.poolCount i) :
    (∀ i, (runFull ops mf).snd.poolCount i
        = (runSmall ops ms).snd.poolCount i) ∧
    ((runFull ops mf).fst).length = ((runSmall ops ms).fst).length ∧
    (∀ sc : Int, ((runSmall ops ms).snd).tc_length sc = 0) :=
  ⟨(equivalence_counts_aux ops mf ms hlen hb hpool).1,
   (equivalence_counts_aux ops mf ms hlen hb hpool).2,
   fun _ => rfl⟩

/-- C8 witness: the amended theorem applied to the counterexample's own
managers and call sequence. -/
theorem degenerate_equivalence_counts_witness :
    (runFull cexOps cexFullMgr).snd.poolCount 1
        = (runSmall cexOps cexSmallMgr).snd.poolCount 1 ∧
    ((runFull cexOps cexFullMgr).fst).length
        = ((runSmall cexOps cexSmallMgr).fst).length ∧
    ((runSmall cexOps cexSmallMgr).snd).tc_length 5 = 0 :=
  ⟨(degenerate_equivalence_counts cexOps cexFullMgr cexSmallMgr (by decide)
      (by decide)
      (by
        intro i
        rcases i with _ | _ | k
        · decide
        · decide
        · rfl)).1 1,
   (degenerate_equivalence_counts cexOps cexFullMgr cexSmallMgr (by decide)
      (by decide)
      (by
        intro i
        rcases i with _ | _ | k
        · decide
        · decide
        · rfl)).2.1,
   (degenerate_equivalence_counts cexOps cexFullMgr cexSmallMgr (by decide)
      (by decide)
      (by
        intro i
        rcases i with _ | _ | k
        · decide
        · decide
        · rfl)).2.2 5⟩

end TcmallocSpec
